import Mathlib

/-!
# CourseMate backend — verification of the hybrid-retrieval core

Shallow embedding of `backend/app/search.py`, `backend/app/main.py` and
`backend/app/embeddings.py`. Chunk ids are modelled as `ℤ` (Python ints),
scores as `ℚ` (the Python code uses floats; the RRF algorithm itself is the
exact arithmetic `1/(k+r)`, which we carry out in `ℚ`; note that in `ℚ`
division by zero yields `0` where Python would raise, which is only reachable
for negative smoothing constants never used by the code). Strings are
`List Char`.
-/

/-! ## search.py — Reciprocal Rank Fusion

Python source:
```
def rrf(bm25_ranked, vec_ranked, k=60):
    score = {}
    for lst in [bm25_ranked, vec_ranked]:
        for r, did in enumerate(lst, start=1):
            score[did] = score.get(did, 0.0) + 1.0 / (k + r)
    return [did for did, _ in sorted(score.items(), key=lambda x: x[1], reverse=True)]
```
The dict is modelled as an insertion-ordered association list (Python dicts
preserve insertion order, and updating an existing key keeps its position);
`sorted(..., reverse=True)` is a stable descending sort, modelled by
`List.insertionSort` with the relation `scoreGe` (insert before the first
strictly smaller element, i.e. earlier-inserted elements win ties). -/

/-- `score.get(did, 0.0)` on the insertion-ordered dict. -/
def lookupScore : List (ℤ × ℚ) → ℤ → ℚ
  | [], _ => 0
  | (a, w) :: t, x => if x = a then w else lookupScore t x

/-- `score[did] = score.get(did, 0.0) + v`: update in place if present
(keeping the key's insertion position, as a Python dict does), else append. -/
def addScore : List (ℤ × ℚ) → ℤ → ℚ → List (ℤ × ℚ)
  | [], x, v => [(x, v)]
  | (a, w) :: t, x, v => if x = a then (a, w + v) :: t else (a, w) :: addScore t x v

/-- The inner loop `for r, did in enumerate(lst, start=r0)`, adding
`1/(k+r)` for each id. -/
def accumFrom (k : ℚ) : List (ℤ × ℚ) → ℕ → List ℤ → List (ℤ × ℚ)
  | s, _, [] => s
  | s, r, did :: rest => accumFrom k (addScore s did (1 / (k + r))) (r + 1) rest

/-- The fully accumulated score dict after both loops (bm25 list first,
then the vector list, each enumerated from rank 1). -/
def buildScores (k : ℚ) (bm25_ranked vec_ranked : List ℤ) : List (ℤ × ℚ) :=
  accumFrom k (accumFrom k [] 1 bm25_ranked) 1 vec_ranked

/-- Descending-by-score comparison used by `sorted(..., key=lambda x: x[1],
reverse=True)`. -/
def scoreGe (p q : ℤ × ℚ) : Prop := q.2 ≤ p.2

instance : DecidableRel scoreGe := fun p q => inferInstanceAs (Decidable (q.2 ≤ p.2))

instance : IsTotal (ℤ × ℚ) scoreGe := ⟨fun p q => le_total q.2 p.2⟩

instance : IsTrans (ℤ × ℚ) scoreGe := ⟨fun _ _ _ h h' => le_trans h' h⟩

/-- The sorted `(id, fused score)` pairs. `List.insertionSort scoreGe` is a
stable descending sort, matching Python's stable `sorted(..., reverse=True)`. -/
def rrfPairs (bm25_ranked vec_ranked : List ℤ) (k : ℚ) : List (ℤ × ℚ) :=
  (buildScores k bm25_ranked vec_ranked).insertionSort scoreGe

/-- `rrf`: the fused id list (ids by fused score, best first). -/
def rrf (bm25_ranked vec_ranked : List ℤ) (k : ℚ) : List ℤ :=
  (rrfPairs bm25_ranked vec_ranked k).map Prod.fst

/-- The fused score the dict assigns to an id (`0` if absent). -/
def fusedScore (bm25_ranked vec_ranked : List ℤ) (k : ℚ) (x : ℤ) : ℚ :=
  lookupScore (buildScores k bm25_ranked vec_ranked) x

/-- Total contribution of one ranked list to an id's score when enumeration
starts at rank `r` (one `1/(k+r)` term per occurrence, as in the source's
accumulation). -/
def contribFrom (k : ℚ) : ℕ → List ℤ → ℤ → ℚ
  | _, [], _ => 0
  | r, a :: t, x => (if x = a then 1 / (k + r) else 0) + contribFrom k (r + 1) t x

/-- Insertion-order deduplication: the key order a Python dict ends up with
after inserting a sequence of keys (first occurrence wins). -/
def firstOccL : List ℤ → List ℤ
  | [] => []
  | a :: t => a :: firstOccL (t.filter (fun b => b ≠ a))
termination_by l => l.length
decreasing_by
  simp only [List.length_cons]
  exact Nat.lt_succ_of_le (List.length_filter_le _ _)

/-! ## main.py — chunker, ingestion pipelines, hybrid search

The raw-text chunker in `ingest`:
```
raw_chunks = [c.strip() for c in payload.text.split("\n\n") if c.strip()]
```
-/

/-- The characters Python's `str.strip()` removes (the ASCII whitespace set;
the source never feeds non-ASCII whitespace to `strip`). -/
def pyWS (c : Char) : Bool :=
  c = ' ' || c = '\t' || c = '\n' || c = '\r' || c = '\x0b' || c = '\x0c'

/-- Python `str.strip()`: drop leading and trailing whitespace. -/
def strip (l : List Char) : List Char :=
  (((l.dropWhile pyWS).reverse).dropWhile pyWS).reverse

/-- Python `s.split("\n\n")`: split on non-overlapping occurrences of the
two-character separator, scanning left to right. -/
def splitNN : List Char → List (List Char)
  | [] => [[]]
  | [c] => [[c]]
  | c1 :: c2 :: rest =>
    if c1 = '\n' ∧ c2 = '\n' then [] :: splitNN rest
    else
      match splitNN (c2 :: rest) with
      | [] => [[c1]]
      | h :: t => (c1 :: h) :: t

/-- `[c.strip() for c in text.split("\n\n") if c.strip()]` — the raw-text
paragraph chunker of `ingest`. -/
def rawChunks (text : List Char) : List (List Char) :=
  ((splitNN text).map strip).filter (fun c => c ≠ [])

/-- Drop leading newlines (used to consume a whole blank-line run). -/
def dropNL (l : List Char) : List Char := l.dropWhile (fun c => c = '\n')

/-- Modelled from the spec's words, for the refinement claim about the
paragraph policy: split on blank-line boundaries, where a boundary is a
maximal run of two or more consecutive newlines. To be compared with
`splitNN`, which the source uses. -/
def specSplit : List Char → List (List Char)
  | [] => [[]]
  | [c] => [[c]]
  | c1 :: c2 :: rest =>
    if c1 = '\n' ∧ c2 = '\n' then [] :: specSplit (dropNL rest)
    else
      match specSplit (c2 :: rest) with
      | [] => [[c1]]
      | h :: t => (c1 :: h) :: t
termination_by l => l.length
decreasing_by
  · simp only [List.length_cons]
    exact Nat.lt_succ_of_le (Nat.le_succ_of_le (List.dropWhile_sublist _).length_le)
  · simp [List.length_cons]

/-- The spec's paragraph policy: split on blank-line runs, trim each
candidate, discard candidates that are empty after trimming. -/
def specChunks (text : List Char) : List (List Char) :=
  ((specSplit text).map strip).filter (fun c => c ≠ [])

/-! ### Data model (models.py / schemas.py) -/

/-- A row of the `documents` table. -/
structure DocumentRec where
  id : ℤ
  title : List Char
  source : Option (List Char)
deriving DecidableEq

/-- A row of the `chunks` table (the durable chunk store; its `embedding`
column is the dense index). -/
structure ChunkRec where
  id : ℤ
  doc_id : ℤ
  page : Option ℤ
  line_start : Option ℤ
  line_end : Option ℤ
  text : List Char
  embedding : List ℚ
deriving DecidableEq

/-- A document in the Meilisearch `chunks` index (the lexical index). -/
structure MeiliDoc where
  id : ℤ
  doc_id : ℤ
  page : Option ℤ
  line_start : Option ℤ
  line_end : Option ℤ
  text : List Char
  title : List Char
deriving DecidableEq

/-- Durable state visible to the pipelines: the two Postgres tables, the
Meilisearch index, and the id sequences (Postgres-assigned primary keys). -/
structure DBState where
  docs : List DocumentRec
  chunks : List ChunkRec
  meili : List MeiliDoc
  nextDocId : ℤ
  nextChunkId : ℤ
deriving DecidableEq

/-- Errors surfaced by an endpoint call: `HTTPException(status_code, ...)`,
an embedding-provider failure propagating out of `embed` (httpx error /
`raise_for_status`), or the `NameError` raised by evaluating the undefined
name `payload` in `ingest_pdf`. -/
inductive ApiError where
  | http (status_code : ℕ) (detail : List Char)
  | provider
  | nameError
deriving DecidableEq

/-- `IngestRequest` (schemas.py). -/
structure IngestRequest where
  title : List Char
  text : List Char

/-- `ChunkOut` (schemas.py). -/
structure ChunkOut where
  id : ℤ
  doc_id : ℤ
  page : Option ℤ
  line_start : Option ℤ
  line_end : Option ℤ
  text : List Char
  score : ℚ
deriving DecidableEq

/-- The embedding call, abstracted: `embed` is blocking I/O whose outcome
(one vector per input text, or a provider error) the pipeline observes. -/
def EmbedOracle : Type := List (List Char) → Except Unit (List (List ℚ))

/-- The raw-text path stores chunks with no positional metadata, ids drawn
from the chunk id sequence. -/
def mkChunks (docId : ℤ) : ℤ → List (List Char × List ℚ) → List ChunkRec
  | _, [] => []
  | cid, (t, v) :: rest =>
    ⟨cid, docId, none, none, none, t, v⟩ :: mkChunks docId (cid + 1) rest

/-- `POST /ingest` (main.py): create the document, chunk the text, reject
empty chunkings with HTTP 400, embed, add all chunks, commit. The returned
state is the durable state when the call finishes: an error before
`db.commit()` rolls the transaction back, leaving the state unchanged.
Returns `(docId, chunkCount)` on success (the data in the status string). -/
def ingest (payload : IngestRequest) (embedO : EmbedOracle) (st : DBState) :
    DBState × Except ApiError (ℤ × ℕ) :=
  let docId := st.nextDocId
  let raw := rawChunks payload.text
  if raw = [] then
    (st, .error (.http 400 "No non-empty paragraphs found".toList))
  else
    match embedO raw with
    | .error _ => (st, .error .provider)
    | .ok vectors =>
      let rows := raw.zip vectors
      ({ docs := st.docs ++ [⟨docId, payload.title, none⟩]
         chunks := st.chunks ++ mkChunks docId st.nextChunkId rows
         meili := st.meili
         nextDocId := docId + 1
         nextChunkId := st.nextChunkId + rows.length },
       .ok (docId, raw.length))

/-- One parsed PDF chunk `(page, line_start, line_end, text)` as returned by
`extract_chunks_from_pdf`. -/
structure PdfChunk where
  page : ℤ
  line_start : ℤ
  line_end : ℤ
  text : List Char
deriving DecidableEq

/-- PDF chunks are stored with their page/line spans. -/
def mkPdfChunks (docId : ℤ) : ℤ → List (PdfChunk × List ℚ) → List ChunkRec
  | _, [] => []
  | cid, (p, v) :: rest =>
    ⟨cid, docId, some p.page, some p.line_start, some p.line_end, p.text, v⟩ ::
      mkPdfChunks docId (cid + 1) rest

/-- `file.filename.lower().endswith(".pdf")`. -/
def isPdfName (filename : List Char) : Bool :=
  (".pdf".toList).isSuffixOf (filename.map Char.toLower)

/-- `POST /ingest_pdf` (main.py). The PDF extractor `extract_chunks_from_pdf`
lives in `ingest_pdf.py`, which is not part of the sources; the pipeline is
therefore parametrised by its output `parsed`. After `db.commit()` the code
builds the Meilisearch batch and evaluates `payload.title` — but no name
`payload` is bound in this endpoint (its parameter is `file`), so Python
raises `NameError` before `add_documents` whenever `parsed` is non-empty:
the chunks are already durably committed, the lexical index is never
written, and the call reports a 500-class failure. -/
def ingest_pdf (filename : List Char) (parsed : List PdfChunk)
    (embedO : EmbedOracle) (st : DBState) :
    DBState × Except ApiError (ℤ × ℕ) :=
  if ¬ isPdfName filename then
    (st, .error (.http 400 "Please upload a .pdf file".toList))
  else if parsed = [] then
    (st, .error (.http 400 "No text extracted from PDF.".toList))
  else
    match embedO (parsed.map (fun p => p.text)) with
    | .error _ => (st, .error .provider)
    | .ok vectors =>
      let rows := parsed.zip vectors
      let committed : DBState :=
        { docs := st.docs ++ [⟨st.nextDocId, filename, some filename⟩]
          chunks := st.chunks ++ mkPdfChunks st.nextDocId st.nextChunkId rows
          meili := st.meili
          nextDocId := st.nextDocId + 1
          nextChunkId := st.nextChunkId + rows.length }
      (committed, .error .nameError)

/-- A hydrated row of the fetch in `search_hybrid`: the chunk columns plus
`1 - (embedding <=> :qvec)` as `score_vec`. -/
structure FetchedRow where
  chunk : ChunkRec
  score_vec : ℚ

/-- `POST /search_hybrid` (main.py), from the point where the two backend
id lists are in hand: fuse with RRF at `k=60`, truncate to `req.k`, fetch
the rows by id, and emit results in fused order, silently skipping any
fused id the row fetch did not return. `store` is the
`WHERE id = ANY(:ids)` row lookup. -/
def search_hybrid (bm25_ids vec_ids : List ℤ) (reqK : ℕ)
    (store : ℤ → Option FetchedRow) : List ChunkOut :=
  let fused_ids := (rrf bm25_ids vec_ids 60).take reqK
  if fused_ids = [] then []
  else
    fused_ids.filterMap (fun cid =>
      (store cid).map (fun r =>
        ⟨r.chunk.id, r.chunk.doc_id, r.chunk.page, r.chunk.line_start,
         r.chunk.line_end, r.chunk.text, r.score_vec⟩))

/-! ### embeddings.py — the no-credential placeholder branch

```
if not OPENAI_API_KEY:
    return [[random.random() for _ in range(1536)] for _ in texts]
```
(after importing Python's random module)
`random.random()` draws successive values from the PRNG; modelled as reading
successive positions of a stream `s : ℕ → ℚ`, threading the position. -/

/-- `[random.random() for _ in range(n)]` starting at stream position
`pos`. -/
def placeholderVec (s : ℕ → ℚ) : ℕ → ℕ → List ℚ
  | _, 0 => []
  | pos, n + 1 => s pos :: placeholderVec s (pos + 1) n

/-- The no-credential branch of `embed`: one 1536-component vector of fresh
PRNG draws per input text. Returns the vectors and the advanced stream
position. -/
def embedNoKey (s : ℕ → ℚ) : List (List Char) → ℕ → List (List ℚ) × ℕ
  | [], pos => ([], pos)
  | _ :: rest, pos =>
    let done := embedNoKey s rest (pos + 1536)
    (placeholderVec s pos 1536 :: done.1, done.2)

/-- One step of Python-dict key insertion: keep the key list if the key is
already present, else append it. -/
def insKey (acc : List ℤ) (x : ℤ) : List ℤ :=
  if x ∈ acc then acc else acc ++ [x]

/-- `stripFilter ps = [c.strip() for c in ps if c.strip()]` — the common
post-processing of both split variants. -/
def stripFilter (ps : List (List Char)) : List (List Char) :=
  (ps.map strip).filter (fun c => c ≠ [])

/-- An empty database (used to evaluate the pipelines at concrete inputs;
Postgres sequences start at 1). -/
def st0 : DBState := ⟨[], [], [], 1, 1⟩

/-- A concrete embedding oracle satisfying the provider contract (one
fixed-dimension vector per text), used to evaluate the pipelines. -/
def constEmbed : EmbedOracle := fun ts => .ok (ts.map (fun _ => List.replicate 1536 0))

/-- A one-row chunk store keyed by id, used to evaluate `search_hybrid` at a
concrete input. -/
def storeW : ℤ → Option FetchedRow := fun cid =>
  if cid = 1 then some ⟨⟨1, 1, none, none, none, ['A'], []⟩, 0⟩ else none

/-! ## Lemmas: the score dictionary -/

theorem lookup_addScore (s : List (ℤ × ℚ)) (a : ℤ) (v : ℚ) (x : ℤ) :
    lookupScore (addScore s a v) x = lookupScore s x + (if x = a then v else 0) := by
  induction s with
  | nil => simp [addScore, lookupScore]
  | cons p t ih =>
    obtain ⟨b, w⟩ := p
    by_cases hab : a = b
    · subst hab
      by_cases hxa : x = a <;> simp [addScore, lookupScore, hxa]
    · by_cases hxb : x = b
      · subst hxb
        rw [addScore, if_neg hab]
        have hax : ¬ x = a := fun h => hab h.symm
        simp [lookupScore, hax]
      · simp [addScore, lookupScore, hab, hxb, ih]

theorem lookup_accumFrom (k : ℚ) (L : List ℤ) :
    ∀ (s : List (ℤ × ℚ)) (r : ℕ) (x : ℤ),
      lookupScore (accumFrom k s r L) x = lookupScore s x + contribFrom k r L x := by
  induction L with
  | nil => intro s r x; simp [accumFrom, contribFrom]
  | cons a t ih =>
    intro s r x
    rw [accumFrom, contribFrom, ih, lookup_addScore]
    ring

theorem fusedScore_eq_contrib (A B : List ℤ) (k : ℚ) (x : ℤ) :
    fusedScore A B k x = contribFrom k 1 A x + contribFrom k 1 B x := by
  rw [fusedScore, buildScores, lookup_accumFrom, lookup_accumFrom]
  simp [lookupScore]

theorem contribFrom_of_not_mem (k : ℚ) (x : ℤ) :
    ∀ (r : ℕ) (L : List ℤ), x ∉ L → contribFrom k r L x = 0 := by
  intro r L
  induction L generalizing r with
  | nil => intro _; rfl
  | cons a t ih =>
    intro h
    rw [contribFrom]
    simp only [List.mem_cons, not_or] at h
    rw [if_neg h.1, ih _ h.2]
    ring

theorem contribFrom_nodup (k : ℚ) (x : ℤ) :
    ∀ (L : List ℤ) (r : ℕ), L.Nodup →
      contribFrom k r L x =
        if x ∈ L then 1 / (k + r + (L.indexOf x : ℕ)) else 0 := by
  intro L
  induction L with
  | nil => intro r _; simp [contribFrom]
  | cons a t ih =>
    intro r hnd
    rw [List.nodup_cons] at hnd
    rw [contribFrom]
    by_cases hxa : x = a
    · subst hxa
      rw [if_pos rfl, contribFrom_of_not_mem k x (r + 1) t hnd.1,
        if_pos (List.mem_cons_self x t)]
      simp [List.indexOf_cons_self]
    · rw [if_neg hxa, ih (r + 1) hnd.2]
      have hidx : (a :: t).indexOf x = t.indexOf x + 1 := by
        rw [List.indexOf_cons]
        have hb : (a == x) = false := by
          simp only [beq_eq_false_iff_ne, ne_eq]
          exact fun h => hxa h.symm
        rw [hb]
        rfl
      by_cases hxt : x ∈ t
      · rw [if_pos hxt, if_pos (List.mem_cons_of_mem a hxt), hidx]
        push_cast
        ring_nf
      · rw [if_neg hxt, if_neg (by simp [hxa, hxt])]
        ring


/-! ## Lemmas: dict key order -/

theorem keys_addScore (s : List (ℤ × ℚ)) (a : ℤ) (v : ℚ) :
    (addScore s a v).map Prod.fst = insKey (s.map Prod.fst) a := by
  induction s with
  | nil => simp [addScore, insKey]
  | cons p t ih =>
    obtain ⟨b, w⟩ := p
    by_cases hab : a = b
    · subst hab
      simp [addScore, insKey]
    · rw [addScore, if_neg hab]
      simp only [List.map_cons, ih, insKey, List.mem_cons]
      by_cases hat : a ∈ t.map Prod.fst
      · simp [hat, hab]
      · simp [hat, hab]

theorem keys_accumFrom (k : ℚ) (L : List ℤ) :
    ∀ (s : List (ℤ × ℚ)) (r : ℕ),
      (accumFrom k s r L).map Prod.fst = L.foldl insKey (s.map Prod.fst) := by
  induction L with
  | nil => intro s r; simp [accumFrom]
  | cons a t ih =>
    intro s r
    rw [accumFrom, ih, List.foldl_cons, keys_addScore]

theorem mem_firstOccL (x : ℤ) : ∀ l, x ∈ firstOccL l ↔ x ∈ l := by
  intro l
  induction l using firstOccL.induct with
  | case1 => simp [firstOccL]
  | case2 a t ih =>
    rw [firstOccL]
    by_cases hxa : x = a
    · simp [hxa]
    · simp only [List.mem_cons, hxa, false_or, ih, List.mem_filter]
      simp [hxa]

theorem nodup_firstOccL : ∀ l, (firstOccL l).Nodup := by
  intro l
  induction l using firstOccL.induct with
  | case1 => simp [firstOccL]
  | case2 a t ih =>
    rw [firstOccL, List.nodup_cons]
    refine ⟨?_, ih⟩
    rw [mem_firstOccL]
    simp

theorem foldl_insKey_eq_firstOccL :
    ∀ (l acc : List ℤ), acc.Nodup →
      l.foldl insKey acc = acc ++ firstOccL (l.filter (fun b => b ∉ acc)) := by
  intro l
  induction l with
  | nil => intro acc _; simp [firstOccL]
  | cons a t ih =>
    intro acc hacc
    rw [List.foldl_cons, insKey]
    by_cases ha : a ∈ acc
    · rw [if_pos ha, ih acc hacc, List.filter_cons]
      simp [ha]
    · have hnd2 : (acc ++ [a]).Nodup := by
        rw [List.nodup_append]
        refine ⟨hacc, List.nodup_singleton a, ?_⟩
        intro x hx hx2
        rw [List.mem_singleton] at hx2
        exact ha (hx2 ▸ hx)
      rw [if_neg ha, ih (acc ++ [a]) hnd2]
      have hcons : (a :: t).filter (fun b => b ∉ acc) = a :: t.filter (fun b => b ∉ acc) := by
        rw [List.filter_cons]
        simp [ha]
      rw [hcons, firstOccL]
      have hf : (t.filter (fun b => b ∉ acc)).filter (fun b => b ≠ a) =
          t.filter (fun b => b ∉ acc ++ [a]) := by
        rw [List.filter_filter]
        apply List.filter_congr
        intro b _
        by_cases hba : b = a <;> by_cases hbacc : b ∈ acc <;> simp [hba, hbacc]
      rw [hf]
      simp

theorem keys_buildScores (k : ℚ) (A B : List ℤ) :
    (buildScores k A B).map Prod.fst = firstOccL (A ++ B) := by
  rw [buildScores, keys_accumFrom, keys_accumFrom]
  have h0 : (([] : List (ℤ × ℚ)).map Prod.fst) = ([] : List ℤ) := rfl
  rw [h0, ← List.foldl_append, foldl_insKey_eq_firstOccL (A ++ B) [] List.nodup_nil]
  simp

theorem lookup_of_mem :
    ∀ (s : List (ℤ × ℚ)), (s.map Prod.fst).Nodup → ∀ p ∈ s, lookupScore s p.1 = p.2 := by
  intro s
  induction s with
  | nil => intro _ p hp; cases hp
  | cons q t ih =>
    intro hnd p hp
    obtain ⟨b, w⟩ := q
    simp only [List.map_cons, List.nodup_cons] at hnd
    rw [List.mem_cons] at hp
    rcases hp with hp | hp
    · subst hp
      simp [lookupScore]
    · rw [lookupScore]
      have hpb : ¬ p.1 = b := by
        intro h
        exact hnd.1 (h ▸ List.mem_map_of_mem Prod.fst hp)
      rw [if_neg hpb]
      exact ih hnd.2 p hp

/-! ## Lemmas: the stable descending sort -/

theorem rrfPairs_perm (A B : List ℤ) (k : ℚ) :
    (rrfPairs A B k).Perm (buildScores k A B) :=
  List.perm_insertionSort scoreGe _

theorem rrfPairs_sorted (A B : List ℤ) (k : ℚ) :
    List.Sorted scoreGe (rrfPairs A B k) :=
  List.sorted_insertionSort scoreGe _

/-- Stability of `orderedInsert scoreGe`, phrased through the equal-score
fibres: inserting `x` puts it in front of the elements of its own score
class and does not disturb any other class. -/
theorem filterEq_orderedInsert (q : ℚ) (x : ℤ × ℚ) :
    ∀ l : List (ℤ × ℚ),
      (List.orderedInsert scoreGe x l).filter (fun p => p.2 = q) =
        if x.2 = q then x :: l.filter (fun p => p.2 = q)
        else l.filter (fun p => p.2 = q) := by
  intro l
  induction l with
  | nil =>
    simp only [List.orderedInsert, List.filter_cons, List.filter_nil]
    by_cases hx : x.2 = q <;> simp [hx]
  | cons y ys ih =>
    rw [List.orderedInsert]
    by_cases hle : scoreGe x y
    · rw [if_pos hle, List.filter_cons]
      by_cases hx : x.2 = q <;> simp [hx]
    · rw [if_neg hle, List.filter_cons, List.filter_cons, ih]
      have hyq : ¬ y.2 = q ∨ ¬ x.2 = q := by
        by_cases hx : x.2 = q
        · left
          intro hy
          exact hle (by rw [scoreGe, hy, hx])
        · right; exact hx
      by_cases hx : x.2 = q
      · rcases hyq with hy | hy
        · simp [hx, hy]
        · exact absurd hx hy
      · by_cases hy : y.2 = q <;> simp [hx, hy]

theorem filterEq_insertionSort (q : ℚ) :
    ∀ l : List (ℤ × ℚ),
      (l.insertionSort scoreGe).filter (fun p => p.2 = q) =
        l.filter (fun p => p.2 = q) := by
  intro l
  induction l with
  | nil => rfl
  | cons x ys ih =>
    rw [List.insertionSort, filterEq_orderedInsert, List.filter_cons]
    by_cases hx : x.2 = q <;> simp [hx, ih]

/-! ## Lemmas: the fused output list -/

theorem rrf_keys_perm (A B : List ℤ) (k : ℚ) :
    (rrf A B k).Perm (firstOccL (A ++ B)) := by
  rw [rrf, ← keys_buildScores k A B]
  exact (rrfPairs_perm A B k).map Prod.fst

theorem rrf_nodup (A B : List ℤ) (k : ℚ) : (rrf A B k).Nodup :=
  ((rrf_keys_perm A B k).nodup_iff).mpr (nodup_firstOccL _)

theorem mem_rrf (A B : List ℤ) (k : ℚ) (x : ℤ) :
    x ∈ rrf A B k ↔ x ∈ A ∨ x ∈ B := by
  rw [(rrf_keys_perm A B k).mem_iff, mem_firstOccL, List.mem_append]

theorem buildScores_snd_eq_fusedScore (A B : List ℤ) (k : ℚ) :
    ∀ p ∈ buildScores k A B, p.2 = fusedScore A B k p.1 := by
  intro p hp
  have hnd : ((buildScores k A B).map Prod.fst).Nodup := by
    rw [keys_buildScores]; exact nodup_firstOccL _
  exact (lookup_of_mem _ hnd p hp).symm

theorem rrfPairs_snd_eq_fusedScore (A B : List ℤ) (k : ℚ) :
    ∀ p ∈ rrfPairs A B k, p.2 = fusedScore A B k p.1 := by
  intro p hp
  exact buildScores_snd_eq_fusedScore A B k p ((rrfPairs_perm A B k).mem_iff.mp hp)

theorem rrf_pairwise_score (A B : List ℤ) (k : ℚ) :
    List.Pairwise (fun x y => fusedScore A B k y ≤ fusedScore A B k x) (rrf A B k) := by
  rw [rrf, List.pairwise_map]
  have hs : List.Pairwise scoreGe (rrfPairs A B k) := rrfPairs_sorted A B k
  refine List.Pairwise.imp_of_mem ?_ hs
  intro p q hp hq hpq
  rw [← rrfPairs_snd_eq_fusedScore A B k p hp, ← rrfPairs_snd_eq_fusedScore A B k q hq]
  exact hpq

/-! ## Lemmas: order of first appearance and tie-breaking -/

/-- In a duplicate-free list, `x` coming strictly before `y` is the same as
`[x, y]` being a sublist. -/
theorem indexOf_lt_iff_sublist :
    ∀ (L : List ℤ) (x y : ℤ), L.Nodup → x ∈ L → y ∈ L → x ≠ y →
      (L.indexOf x < L.indexOf y ↔ [x, y].Sublist L) := by
  intro L
  induction L with
  | nil => intro x y _ hx _ _; cases hx
  | cons a t ih =>
    intro x y hnd hx hy hxy
    rw [List.nodup_cons] at hnd
    by_cases hxa : x = a
    · subst hxa
      have hyt : y ∈ t := by
        rcases List.mem_cons.mp hy with h | h
        · exact absurd h.symm hxy
        · exact h
      constructor
      · intro _
        exact (List.cons_sublist_cons).mpr (List.singleton_sublist.mpr hyt)
      · intro _
        rw [List.indexOf_cons_self]
        rw [List.indexOf_cons]
        have hbeq : (x == y) = false := by
          simp only [beq_eq_false_iff_ne, ne_eq]
          exact hxy
        rw [hbeq]
        simp
    · by_cases hya : y = a
      · subst hya
        constructor
        · intro hlt
          exfalso
          rw [List.indexOf_cons_self] at hlt
          exact Nat.not_lt_zero _ hlt
        · intro hsub
          exfalso
          rcases List.sublist_cons_iff.mp hsub with h | ⟨r, hr, hrs⟩
          · exact hnd.1 (h.subset (by simp))
          · injection hr with h1 _
            exact hxy h1
      · have hxt : x ∈ t := (List.mem_cons.mp hx).resolve_left hxa
        have hyt : y ∈ t := (List.mem_cons.mp hy).resolve_left hya
        have hbx : (a == x) = false := by
          simp only [beq_eq_false_iff_ne, ne_eq]
          exact fun h => hxa h.symm
        have hby : (a == y) = false := by
          simp only [beq_eq_false_iff_ne, ne_eq]
          exact fun h => hya h.symm
        rw [List.indexOf_cons, List.indexOf_cons, hbx, hby]
        simp only [cond_false]
        rw [Nat.add_lt_add_iff_right, ih x y hnd.2 hxt hyt hxy]
        constructor
        · intro h
          exact h.cons a
        · intro hsub
          rcases List.sublist_cons_iff.mp hsub with h | ⟨r, hr, hrs⟩
          · exact h
          · exfalso
            injection hr with h1 _
            exact hxa h1

/-- Filtering out a third element preserves the relative first-occurrence
order of `x` and `y`. -/
theorem indexOf_filter_order :
    ∀ (t : List ℤ) (a x y : ℤ), x ≠ y → x ≠ a → y ≠ a → x ∈ t → y ∈ t →
      (t.indexOf x < t.indexOf y ↔
        (t.filter (fun b => b ≠ a)).indexOf x < (t.filter (fun b => b ≠ a)).indexOf y) := by
  intro t
  induction t with
  | nil => intro a x y _ _ _ hx _; cases hx
  | cons b t' ih =>
    intro a x y hxy hxa hya hx hy
    by_cases hbx : b = x
    · subst hbx
      have hyt : y ∈ t' := (List.mem_cons.mp hy).resolve_left (fun h => hxy h.symm)
      have hfc : (b :: t').filter (fun c => c ≠ a) = b :: t'.filter (fun c => c ≠ a) := by
        rw [List.filter_cons]
        simp [hxa]
      rw [hfc, List.indexOf_cons_self, List.indexOf_cons_self]
      have hby : (b == y) = false := by
        simp only [beq_eq_false_iff_ne, ne_eq]
        exact hxy
      rw [List.indexOf_cons, List.indexOf_cons, hby]
      simp
    · by_cases hby : b = y
      · subst hby
        have hfc : (b :: t').filter (fun c => c ≠ a) = b :: t'.filter (fun c => c ≠ a) := by
          rw [List.filter_cons]
          simp [hya]
        rw [hfc, List.indexOf_cons_self, List.indexOf_cons_self]
        have hbx2 : (b == x) = false := by
          simp only [beq_eq_false_iff_ne, ne_eq]
          exact hbx
        rw [List.indexOf_cons, List.indexOf_cons, hbx2]
        simp
      · have hxt : x ∈ t' := (List.mem_cons.mp hx).resolve_left (fun h => hbx h.symm)
        have hyt : y ∈ t' := (List.mem_cons.mp hy).resolve_left (fun h => hby h.symm)
        have hbxf : (b == x) = false := by
          simp only [beq_eq_false_iff_ne, ne_eq]
          exact hbx
        have hbyf : (b == y) = false := by
          simp only [beq_eq_false_iff_ne, ne_eq]
          exact hby
        by_cases hba : b = a
        · subst hba
          have hfc : (b :: t').filter (fun c => c ≠ b) = t'.filter (fun c => c ≠ b) := by
            rw [List.filter_cons]
            simp
          rw [hfc, List.indexOf_cons, List.indexOf_cons, hbxf, hbyf]
          simp only [cond_false, Nat.add_lt_add_iff_right]
          exact ih b x y hxy hxa hya hxt hyt
        · have hfc : (b :: t').filter (fun c => c ≠ a) = b :: t'.filter (fun c => c ≠ a) := by
            rw [List.filter_cons]
            simp [hba]
          rw [hfc, List.indexOf_cons, List.indexOf_cons, hbxf, hbyf,
            List.indexOf_cons, List.indexOf_cons, hbxf, hbyf]
          simp only [cond_false, Nat.add_lt_add_iff_right]
          exact ih a x y hxy hxa hya hxt hyt

/-- First-occurrence order in `l` is exactly the order of the deduplicated
key list `firstOccL l`. -/
theorem indexOf_lt_iff_sublist_firstOccL :
    ∀ (l : List ℤ) (x y : ℤ), x ≠ y → x ∈ l → y ∈ l →
      (l.indexOf x < l.indexOf y ↔ [x, y].Sublist (firstOccL l)) := by
  intro l
  induction l using firstOccL.induct with
  | case1 => intro x y _ hx _; cases hx
  | case2 a t ih =>
    intro x y hxy hx hy
    rw [firstOccL]
    by_cases hxa : x = a
    · subst hxa
      have hya : y ≠ x := fun h => hxy h.symm
      have hyt : y ∈ t := (List.mem_cons.mp hy).resolve_left hya
      have hmem : y ∈ firstOccL (t.filter (fun b => b ≠ x)) := by
        rw [mem_firstOccL, List.mem_filter]
        exact ⟨hyt, by simpa using hya⟩
      constructor
      · intro _
        exact (List.cons_sublist_cons).mpr (List.singleton_sublist.mpr hmem)
      · intro _
        rw [List.indexOf_cons_self]
        have hbeq : (x == y) = false := by
          simp only [beq_eq_false_iff_ne, ne_eq]
          exact hxy
        rw [List.indexOf_cons, hbeq]
        simp
    · by_cases hya : y = a
      · subst hya
        constructor
        · intro hlt
          exfalso
          rw [List.indexOf_cons_self] at hlt
          exact Nat.not_lt_zero _ hlt
        · intro hsub
          exfalso
          rcases List.sublist_cons_iff.mp hsub with h | ⟨r, hr, _⟩
          · have : y ∈ firstOccL (t.filter (fun b => b ≠ y)) := h.subset (by simp)
            rw [mem_firstOccL, List.mem_filter] at this
            simpa using this.2
          · injection hr with h1 _
            exact hxa h1
      · have hxt : x ∈ t := (List.mem_cons.mp hx).resolve_left hxa
        have hyt : y ∈ t := (List.mem_cons.mp hy).resolve_left hya
        have hbxf : (a == x) = false := by
          simp only [beq_eq_false_iff_ne, ne_eq]
          exact fun h => hxa h.symm
        have hbyf : (a == y) = false := by
          simp only [beq_eq_false_iff_ne, ne_eq]
          exact fun h => hya h.symm
        rw [List.indexOf_cons, List.indexOf_cons, hbxf, hbyf]
        simp only [cond_false, Nat.add_lt_add_iff_right]
        have hxf : x ∈ t.filter (fun b => b ≠ a) := by
          rw [List.mem_filter]
          exact ⟨hxt, by simpa using hxa⟩
        have hyf : y ∈ t.filter (fun b => b ≠ a) := by
          rw [List.mem_filter]
          exact ⟨hyt, by simpa using hya⟩
        rw [indexOf_filter_order t a x y hxy hxa hya hxt hyt,
          ih x y hxy hxf hyf]
        constructor
        · intro h
          exact h.cons a
        · intro hsub
          rcases List.sublist_cons_iff.mp hsub with h | ⟨r, hr, _⟩
          · exact h
          · exfalso
            injection hr with h1 _
            exact hxa h1

/-- At an exact score tie, the fused output preserves the order of first
appearance in the concatenation (bm25 list first, then the vector list):
the stable sort cannot swap equal-score entries. -/
theorem rrf_tie_sublist (A B : List ℤ) (k : ℚ) (x y : ℤ)
    (hxy : x ≠ y) (hx : x ∈ A ++ B) (hy : y ∈ A ++ B)
    (hq : fusedScore A B k x = fusedScore A B k y)
    (hfa : (A ++ B).indexOf x < (A ++ B).indexOf y) :
    [x, y].Sublist (rrf A B k) := by
  have h1 : [x, y].Sublist (firstOccL (A ++ B)) :=
    (indexOf_lt_iff_sublist_firstOccL (A ++ B) x y hxy hx hy).mp hfa
  rw [← keys_buildScores k A B] at h1
  obtain ⟨l', hl', hmap⟩ := List.sublist_map_iff.mp h1
  match l', hmap with
  | [p1, p2], hmap =>
    have hp1x : p1.1 = x := by
      injection hmap with h1' _
      exact h1'.symm
    have hp2y : p2.1 = y := by
      injection hmap with _ h2'
      injection h2' with h3' _
      exact h3'.symm
    have hp1m : p1 ∈ buildScores k A B := hl'.subset (by simp)
    have hp2m : p2 ∈ buildScores k A B := hl'.subset (by simp)
    have hv1 : p1.2 = fusedScore A B k x := by
      rw [buildScores_snd_eq_fusedScore A B k p1 hp1m, hp1x]
    have hv2 : p2.2 = fusedScore A B k x := by
      rw [buildScores_snd_eq_fusedScore A B k p2 hp2m, hp2y, hq]
    set q : ℚ := fusedScore A B k x with hqdef
    have hfilt : [p1, p2].filter (fun p => p.2 = q) = [p1, p2] := by
      simp [List.filter_cons, hv1, hv2]
    have h2 : [p1, p2].Sublist ((buildScores k A B).filter (fun p => p.2 = q)) := by
      rw [← hfilt]
      exact hl'.filter _
    rw [← filterEq_insertionSort q (buildScores k A B)] at h2
    have h3 : [p1, p2].Sublist (rrfPairs A B k) :=
      h2.trans (List.filter_sublist _)
    have h4 : [x, y].Sublist (rrf A B k) := by
      rw [rrf]
      have := h3.map Prod.fst
      simpa [hp1x, hp2y] using this
    exact h4

/-! ## Lemmas: Python strip -/

theorem strip_nil : strip [] = [] := rfl

theorem dropWhile_dropWhile_self (p : Char → Bool) :
    ∀ l : List Char, (l.dropWhile p).dropWhile p = l.dropWhile p := by
  intro l
  induction l with
  | nil => rfl
  | cons a t ih =>
    by_cases ha : p a = true
    · rw [List.dropWhile_cons_of_pos ha, ih]
    · rw [List.dropWhile_cons_of_neg (by simpa using ha),
        List.dropWhile_cons_of_neg (by simpa using ha)]

theorem strip_cons_ws (c : Char) (l : List Char) (h : pyWS c = true) :
    strip (c :: l) = strip l := by
  rw [strip, strip, List.dropWhile_cons_of_pos h]

theorem strip_idem : ∀ l : List Char, strip (strip l) = strip l := by
  intro l
  set d := fun m : List Char => m.dropWhile pyWS with hd
  have hm : d (d l) = d l := dropWhile_dropWhile_self pyWS l
  set m := d l with hmdef
  have hY : strip l = (d m.reverse).reverse := rfl
  have hpre : (d m.reverse).reverse <+: m := by
    have hs : d m.reverse <:+ m.reverse := List.dropWhile_suffix pyWS
    refine List.reverse_suffix.mp ?_
    rw [List.reverse_reverse]
    exact hs
  have hdY : d ((d m.reverse).reverse) = (d m.reverse).reverse := by
    cases hYc : (d m.reverse).reverse with
    | nil => rfl
    | cons y0 yt =>
      obtain ⟨s, hsm⟩ := hpre
      rw [hYc] at hsm
      have hy0 : pyWS y0 = false := by
        by_contra hpos
        have hpos' : pyWS y0 = true := by
          cases hb : pyWS y0
          · exact absurd hb hpos
          · rfl
        have hmc : m = y0 :: (yt ++ s) := by
          rw [← hsm]; rfl
        have : d m = d (yt ++ s) := by
          rw [hmc, hd]
          exact List.dropWhile_cons_of_pos hpos'
        have hlen : (d m).length ≤ (yt ++ s).length := by
          rw [this, hd]
          exact (List.dropWhile_sublist _).length_le
        rw [show d m = m from hm, hmc] at hlen
        simp at hlen
      exact List.dropWhile_cons_of_neg (by simp [hy0])
  rw [hY, strip]
  rw [show ((d m.reverse).reverse.dropWhile pyWS) = d ((d m.reverse).reverse) from rfl]
  rw [hdY, List.reverse_reverse, hd]
  rw [dropWhile_dropWhile_self pyWS m.reverse]

/-! ## Lemmas: the two split functions agree after trim-and-filter -/

theorem stripFilter_nil : stripFilter [] = [] := rfl

theorem stripFilter_cons_of_empty (x : List Char) (l : List (List Char))
    (h : strip x = []) : stripFilter (x :: l) = stripFilter l := by
  rw [stripFilter, List.map_cons, List.filter_cons]
  simp [h, stripFilter]

theorem stripFilter_cons_of_ne (x : List Char) (l : List (List Char))
    (h : strip x ≠ []) : stripFilter (x :: l) = strip x :: stripFilter l := by
  rw [stripFilter, List.map_cons, List.filter_cons]
  simp [h, stripFilter]

theorem splitNN_ne_nil : ∀ s : List Char, splitNN s ≠ [] := by
  intro s
  induction s using splitNN.induct with
  | case1 => simp [splitNN]
  | case2 c => simp [splitNN]
  | case3 c1 c2 rest hnn ih =>
    rw [splitNN, if_pos hnn]
    simp
  | case4 c1 c2 rest hnn hEq ih =>
    rw [splitNN, if_neg hnn, hEq]
    simp
  | case5 c1 c2 rest hnn h t hEq ih =>
    rw [splitNN, if_neg hnn, hEq]
    simp

theorem specSplit_ne_nil : ∀ s : List Char, specSplit s ≠ [] := by
  intro s
  induction s using specSplit.induct with
  | case1 => simp [specSplit]
  | case2 c => simp [specSplit]
  | case3 c1 c2 rest hnn ih =>
    rw [specSplit, if_pos hnn]
    simp
  | case4 c1 c2 rest hnn hEq ih =>
    rw [specSplit, if_neg hnn, hEq]
    simp
  | case5 c1 c2 rest hnn h t hEq ih =>
    rw [specSplit, if_neg hnn, hEq]
    simp

/-- Prepending a single newline does not change the trimmed, filtered
chunking: the newline is either absorbed into the separator or stripped. -/
theorem stripFilter_splitNN_newline :
    ∀ u : List Char, stripFilter (splitNN ('\n' :: u)) = stripFilter (splitNN u) := by
  intro u
  induction u with
  | nil =>
    rw [show splitNN ['\n'] = [['\n']] from rfl, show splitNN [] = [[]] from rfl]
    rw [stripFilter_cons_of_empty _ _ (by rfl), stripFilter_cons_of_empty _ _ strip_nil]
  | cons c v ih =>
    by_cases hc : c = '\n'
    · subst hc
      rw [splitNN, if_pos ⟨rfl, rfl⟩]
      rw [stripFilter_cons_of_empty _ _ strip_nil, ih]
    · rw [splitNN, if_neg (fun hp => hc hp.2)]
      obtain ⟨h, t, heq⟩ := List.exists_cons_of_ne_nil (splitNN_ne_nil (c :: v))
      rw [heq]
      have hstrip : strip ('\n' :: h) = strip h := strip_cons_ws '\n' h (by rfl)
      by_cases hsh : strip h = []
      · rw [show (match (h :: t : List (List Char)) with
            | [] => [['\n']]
            | h :: t => (('\n' :: h) :: t : List (List Char))) = ('\n' :: h) :: t from rfl]
        rw [stripFilter_cons_of_empty _ _ (hstrip.trans hsh),
          stripFilter_cons_of_empty _ _ hsh]
      · rw [show (match (h :: t : List (List Char)) with
            | [] => [['\n']]
            | h :: t => (('\n' :: h) :: t : List (List Char))) = ('\n' :: h) :: t from rfl]
        rw [stripFilter_cons_of_ne _ _ (by rw [hstrip]; exact hsh),
          stripFilter_cons_of_ne _ _ hsh, hstrip]

/-- Dropping a leading newline run does not change the trimmed, filtered
chunking. -/
theorem stripFilter_splitNN_dropNL :
    ∀ u : List Char, stripFilter (splitNN (dropNL u)) = stripFilter (splitNN u) := by
  intro u
  induction u with
  | nil => rfl
  | cons c v ih =>
    by_cases hc : c = '\n'
    · subst hc
      rw [show dropNL ('\n' :: v) = dropNL v from
          List.dropWhile_cons_of_pos (by simp), ih,
        stripFilter_splitNN_newline v]
    · rw [show dropNL (c :: v) = c :: v from
        List.dropWhile_cons_of_neg (by simp [hc])]

/-- If the two splits agree on their first candidate and on the processed
tails, they agree after processing. -/
theorem stripFilter_eq_of_head_tail (s : List Char)
    (hhead : (splitNN s).headI = (specSplit s).headI)
    (htail : stripFilter (splitNN s).tail = stripFilter (specSplit s).tail) :
    stripFilter (splitNN s) = stripFilter (specSplit s) := by
  obtain ⟨h1, t1, he1⟩ := List.exists_cons_of_ne_nil (splitNN_ne_nil s)
  obtain ⟨h2, t2, he2⟩ := List.exists_cons_of_ne_nil (specSplit_ne_nil s)
  rw [he1, he2] at hhead htail ⊢
  simp only [List.headI_cons] at hhead
  simp only [List.tail_cons] at htail
  subst hhead
  by_cases hsh : strip h1 = []
  · rw [stripFilter_cons_of_empty _ _ hsh, stripFilter_cons_of_empty _ _ hsh, htail]
  · rw [stripFilter_cons_of_ne _ _ hsh, stripFilter_cons_of_ne _ _ hsh, htail]

/-- Core of the chunker refinement: the source split (on the literal
separator) and the spec split (on maximal blank-line runs) have the same
first candidate, and their tails process identically. -/
theorem splitNN_specSplit_head_tail :
    ∀ (n : ℕ) (s : List Char), s.length ≤ n →
      (splitNN s).headI = (specSplit s).headI ∧
        stripFilter (splitNN s).tail = stripFilter (specSplit s).tail := by
  intro n
  induction n with
  | zero =>
    intro s hlen
    rw [Nat.le_zero, List.length_eq_zero] at hlen
    subst hlen
    constructor <;> simp [splitNN, specSplit]
  | succ n ihn =>
    intro s hlen
    match s with
    | [] => constructor <;> simp [splitNN, specSplit]
    | [c] => constructor <;> simp [splitNN, specSplit]
    | c1 :: c2 :: rest =>
      simp only [List.length_cons] at hlen
      have hrest : rest.length ≤ n := by omega
      by_cases hnn : c1 = '\n' ∧ c2 = '\n'
      · rw [splitNN, if_pos hnn, specSplit, if_pos hnn]
        refine ⟨rfl, ?_⟩
        simp only [List.tail_cons]
        have hdn : (dropNL rest).length ≤ n :=
          le_trans (List.dropWhile_sublist _).length_le hrest
        have hc := ihn (dropNL rest) hdn
        have hfull := stripFilter_eq_of_head_tail (dropNL rest) hc.1 hc.2
        rw [← stripFilter_splitNN_dropNL rest, hfull]
      · rw [splitNN, if_neg hnn, specSplit, if_neg hnn]
        have hlen2 : (c2 :: rest).length ≤ n := by
          simp only [List.length_cons]
          omega
        have hc := ihn (c2 :: rest) hlen2
        obtain ⟨h1, t1, he1⟩ := List.exists_cons_of_ne_nil (splitNN_ne_nil (c2 :: rest))
        obtain ⟨h2, t2, he2⟩ := List.exists_cons_of_ne_nil (specSplit_ne_nil (c2 :: rest))
        rw [he1, he2] at hc
        simp only [List.headI_cons, List.tail_cons] at hc
        obtain ⟨hh, ht⟩ := hc
        subst hh
        rw [he1, he2]
        exact ⟨rfl, ht⟩

/-- The raw-text chunker of `ingest` computes exactly the spec's paragraph
policy. -/
theorem rawChunks_eq_specChunks : ∀ s : List Char, rawChunks s = specChunks s := by
  intro s
  have hc := splitNN_specSplit_head_tail s.length s (Nat.le_refl _)
  exact stripFilter_eq_of_head_tail s hc.1 hc.2

/-! ## Lemmas: ingestion pipelines -/

theorem mkChunks_length (docId : ℤ) :
    ∀ (cid : ℤ) (rows : List (List Char × List ℚ)),
      (mkChunks docId cid rows).length = rows.length := by
  intro cid rows
  induction rows generalizing cid with
  | nil => rfl
  | cons r t ih =>
    obtain ⟨a, b⟩ := r
    rw [mkChunks]
    simp [ih]

theorem mkPdfChunks_length (docId : ℤ) :
    ∀ (cid : ℤ) (rows : List (PdfChunk × List ℚ)),
      (mkPdfChunks docId cid rows).length = rows.length := by
  intro cid rows
  induction rows generalizing cid with
  | nil => rfl
  | cons r t ih =>
    obtain ⟨a, b⟩ := r
    rw [mkPdfChunks]
    simp [ih]

/-! ## Lemmas: hybrid search output -/

theorem filterMap_store_ids (store : ℤ → Option FetchedRow)
    (hStore : ∀ cid r, store cid = some r → r.chunk.id = cid) :
    ∀ l : List ℤ,
      ((l.filterMap (fun cid =>
          (store cid).map (fun r =>
            (⟨r.chunk.id, r.chunk.doc_id, r.chunk.page, r.chunk.line_start,
              r.chunk.line_end, r.chunk.text, r.score_vec⟩ : ChunkOut)))).map
        (fun c => c.id)) = l.filter (fun cid => (store cid).isSome) := by
  intro l
  induction l with
  | nil => rfl
  | cons cid t ih =>
    rw [List.filterMap_cons, List.filter_cons]
    cases hstore : store cid with
    | none => simpa [hstore] using ih
    | some r =>
      simp [hstore, ih, hStore cid r hstore]

/-! ## Lemmas: placeholder embeddings -/

theorem placeholderVec_length (s : ℕ → ℚ) :
    ∀ (n pos : ℕ), (placeholderVec s pos n).length = n := by
  intro n
  induction n with
  | zero => intro pos; rfl
  | succ m ih =>
    intro pos
    rw [placeholderVec]
    simp [ih]

theorem embedNoKey_count (s : ℕ → ℚ) :
    ∀ (texts : List (List Char)) (pos : ℕ),
      ((embedNoKey s texts pos).1).length = texts.length := by
  intro texts
  induction texts with
  | nil => intro pos; rfl
  | cons t ts ih =>
    intro pos
    rw [embedNoKey]
    simp [ih]

theorem embedNoKey_vec_length (s : ℕ → ℚ) :
    ∀ (texts : List (List Char)) (pos : ℕ) (v : List ℚ),
      v ∈ (embedNoKey s texts pos).1 → v.length = 1536 := by
  intro texts
  induction texts with
  | nil => intro pos v hv; cases hv
  | cons t ts ih =>
    intro pos v hv
    rw [embedNoKey] at hv
    rcases List.mem_cons.mp hv with h | h
    · rw [h]
      exact placeholderVec_length s 1536 pos
    · exact ih (pos + 1536) v h

theorem placeholderVec_succ (s : ℕ → ℚ) (pos n : ℕ) :
    placeholderVec s pos (n + 1) = s pos :: placeholderVec s (pos + 1) n := rfl

/-! ## Claim theorems -/

/-- C1: for every pair of ranked (duplicate-free) id lists and every
smoothing constant `k`, the fused score `rrf` assigns to an id is the sum
over both input lists of `1/(k + r)` for its 1-based rank `r` in that list
(0 from a list it is absent from); in particular an id at rank 1 in both
lists with `k = 60` scores exactly `2/61`, and fusing `[1,2,3]` with
`[3,1,2]` at `k = 60` yields id 1 first with `1/61 + 1/62`, id 3 second
with `1/61 + 1/63`, and id 2 third with `1/62 + 1/63`. -/
theorem rrf_score_formula (A B : List ℤ) (k : ℚ) (hA : A.Nodup) (hB : B.Nodup) :
    (∀ x : ℤ, fusedScore A B k x =
        (if x ∈ A then 1 / (k + ((A.indexOf x : ℚ) + 1)) else 0) +
        (if x ∈ B then 1 / (k + ((B.indexOf x : ℚ) + 1)) else 0)) ∧
    fusedScore [7] [7] 60 7 = 2 / 61 ∧
    rrf [1, 2, 3] [3, 1, 2] 60 = [1, 3, 2] ∧
    fusedScore [1, 2, 3] [3, 1, 2] 60 1 = 1 / 61 + 1 / 62 ∧
    fusedScore [1, 2, 3] [3, 1, 2] 60 3 = 1 / 61 + 1 / 63 ∧
    fusedScore [1, 2, 3] [3, 1, 2] 60 2 = 1 / 62 + 1 / 63 := by
  refine ⟨?_, ?_, ?_, ?_, ?_, ?_⟩
  · intro x
    rw [fusedScore_eq_contrib, contribFrom_nodup k x A 1 hA, contribFrom_nodup k x B 1 hB]
    have e1 : k + ((1 : ℕ) : ℚ) + ((A.indexOf x : ℕ) : ℚ) = k + ((A.indexOf x : ℚ) + 1) := by
      push_cast
      ring
    have e2 : k + ((1 : ℕ) : ℚ) + ((B.indexOf x : ℕ) : ℚ) = k + ((B.indexOf x : ℚ) + 1) := by
      push_cast
      ring
    rw [e1, e2]
  · norm_num [fusedScore, buildScores, accumFrom, addScore, lookupScore]
  · norm_num [rrf, rrfPairs, buildScores, accumFrom, addScore, List.insertionSort,
      List.orderedInsert, scoreGe]
  · norm_num [fusedScore, buildScores, accumFrom, addScore, lookupScore]
  · norm_num [fusedScore, buildScores, accumFrom, addScore, lookupScore]
  · norm_num [fusedScore, buildScores, accumFrom, addScore, lookupScore]

/-- Witness for C1 at `A = [1,2,3]`, `B = [3,1,2]`, `k = 60`, `x = 1`. -/
theorem rrf_score_formula_witness :
    ([1, 2, 3] : List ℤ).Nodup ∧ ([3, 1, 2] : List ℤ).Nodup ∧
    fusedScore [1, 2, 3] [3, 1, 2] 60 1 =
      (if (1 : ℤ) ∈ ([1, 2, 3] : List ℤ) then
        1 / (60 + ((([1, 2, 3] : List ℤ).indexOf 1 : ℚ) + 1)) else 0) +
      (if (1 : ℤ) ∈ ([3, 1, 2] : List ℤ) then
        1 / (60 + ((([3, 1, 2] : List ℤ).indexOf 1 : ℚ) + 1)) else 0) :=
  ⟨by decide, by decide,
    (rrf_score_formula [1, 2, 3] [3, 1, 2] 60 (by decide) (by decide)).1 1⟩

/-- C8: swapping which list is passed first leaves every fused score
unchanged — the accumulation is symmetric in the two lists. -/
theorem rrf_score_symmetric :
    ∀ (A B : List ℤ) (k : ℚ) (x : ℤ), fusedScore A B k x = fusedScore B A k x := by
  intro A B k x
  rw [fusedScore_eq_contrib, fusedScore_eq_contrib]
  ring

/-- C10: the fused list contains each id occurring in at least one input
list exactly once and nothing else; `rrf` performs no truncation and is a
total function (it never raises); fusing two empty lists yields `[]`. -/
theorem rrf_ids_exactly_once :
    ∀ (A B : List ℤ) (k : ℚ),
      (rrf A B k).Nodup ∧ (∀ x : ℤ, x ∈ rrf A B k ↔ x ∈ A ∨ x ∈ B) ∧
      rrf [] [] k = [] := by
  intro A B k
  exact ⟨rrf_nodup A B k, fun x => mem_rrf A B k x, rfl⟩

/-- C3: the fused output is in non-increasing fused-score order, and an
exact score tie is broken deterministically by first appearance, scanning
the first list in rank order, then the second (the position of the first
occurrence in the concatenation of the two input lists). -/
theorem rrf_sorted_and_tiebreak (A B : List ℤ) (k : ℚ) :
    List.Pairwise (fun x y => fusedScore A B k y ≤ fusedScore A B k x) (rrf A B k) ∧
    (∀ x y : ℤ, x ≠ y → x ∈ A ++ B → y ∈ A ++ B →
      fusedScore A B k x = fusedScore A B k y →
      ((rrf A B k).indexOf x < (rrf A B k).indexOf y ↔
        (A ++ B).indexOf x < (A ++ B).indexOf y)) := by
  refine ⟨rrf_pairwise_score A B k, ?_⟩
  intro x y hxy hx hy hq
  have hxr : x ∈ rrf A B k := (mem_rrf A B k x).mpr (List.mem_append.mp hx)
  have hyr : y ∈ rrf A B k := (mem_rrf A B k y).mpr (List.mem_append.mp hy)
  have hnd := rrf_nodup A B k
  constructor
  · intro hlt
    by_contra hnot
    have hne : (A ++ B).indexOf x ≠ (A ++ B).indexOf y :=
      fun h => hxy ((List.indexOf_inj hx hy).mp h)
    have hyx : (A ++ B).indexOf y < (A ++ B).indexOf x := by omega
    have hsub := rrf_tie_sublist A B k y x (Ne.symm hxy) hy hx hq.symm hyx
    have hlt2 := (indexOf_lt_iff_sublist (rrf A B k) y x hnd hyr hxr (Ne.symm hxy)).mpr hsub
    omega
  · intro hfa
    have hsub := rrf_tie_sublist A B k x y hxy hx hy hq hfa
    exact (indexOf_lt_iff_sublist (rrf A B k) x y hnd hxr hyr hxy).mpr hsub

/-- Witness for C3 at `A = [1]`, `B = [2]`, `k = 60`, where ids 1 and 2 tie
exactly at `1/61`. -/
theorem rrf_sorted_and_tiebreak_witness :
    ((1 : ℤ) ≠ 2) ∧ ((1 : ℤ) ∈ (([1] : List ℤ) ++ [2])) ∧
    ((2 : ℤ) ∈ (([1] : List ℤ) ++ [2])) ∧
    fusedScore [1] [2] 60 1 = fusedScore [1] [2] 60 2 ∧
    ((rrf [1] [2] 60).indexOf 1 < (rrf [1] [2] 60).indexOf 2 ↔
      (([1] : List ℤ) ++ [2]).indexOf 1 < (([1] : List ℤ) ++ [2]).indexOf 2) := by
  have hq : fusedScore [1] [2] 60 1 = fusedScore [1] [2] 60 2 := by
    norm_num [fusedScore, buildScores, accumFrom, addScore, lookupScore]
  exact ⟨by decide, by decide, by decide, hq,
    (rrf_sorted_and_tiebreak [1] [2] 60).2 1 2 (by decide) (by decide) (by decide) hq⟩

/-- C4: the raw-text chunk texts are obtained by splitting on blank-line
boundaries, trimming each candidate, and discarding candidates that are
empty after trimming (the source's literal split on the two-newline
separator computes exactly this); every produced chunk is a non-empty,
whitespace-trimmed string, and the input `"A\n\nB\n\n\nC"` yields exactly
`["A", "B", "C"]`. -/
theorem raw_chunking_matches_paragraph_policy :
    (∀ s : List Char, rawChunks s = specChunks s) ∧
    (∀ (s c : List Char), c ∈ rawChunks s → c ≠ [] ∧ strip c = c) ∧
    rawChunks ("A\n\nB\n\n\nC".toList) = [['A'], ['B'], ['C']] := by
  refine ⟨rawChunks_eq_specChunks, ?_, by decide⟩
  intro s c hc
  rw [rawChunks] at hc
  have hmem := List.mem_filter.mp hc
  obtain ⟨x, _, hcx⟩ := List.mem_map.mp hmem.1
  refine ⟨by simpa using hmem.2, ?_⟩
  rw [← hcx, strip_idem]

/-- Witness for C4's per-chunk property at `s = "A\n\nB"`, `c = "A"`. -/
theorem raw_chunking_matches_paragraph_policy_witness :
    (['A'] ∈ rawChunks ("A\n\nB".toList)) ∧ ['A'] ≠ [] ∧ strip ['A'] = ['A'] := by
  have hm : ['A'] ∈ rawChunks ("A\n\nB".toList) := by decide
  exact ⟨hm, raw_chunking_matches_paragraph_policy.2.1 ("A\n\nB".toList) ['A'] hm⟩

/-- C5: when paragraph chunking produces no non-empty chunk, `ingest` fails
with HTTP 400 ("No non-empty paragraphs found") and the durable state is
unchanged — no zero-chunk document is persisted. -/
theorem ingest_empty_input_rejected (payload : IngestRequest) (embedO : EmbedOracle)
    (st : DBState) (h : rawChunks payload.text = []) :
    ingest payload embedO st =
      (st, .error (.http 400 "No non-empty paragraphs found".toList)) := by
  rw [ingest]
  simp [h]

/-- Witness for C5 at the all-whitespace input `" \n "`. -/
theorem ingest_empty_input_rejected_witness :
    rawChunks (" \n ".toList) = [] ∧
    ingest ⟨['T'], " \n ".toList⟩ constEmbed st0 =
      (st0, .error (.http 400 "No non-empty paragraphs found".toList)) := by
  have h : rawChunks (" \n ".toList) = [] := by decide
  exact ⟨h, ingest_empty_input_rejected ⟨['T'], " \n ".toList⟩ constEmbed st0 h⟩

/-- C9 counterexample: the claim says the no-credential placeholder vectors
are deterministic across calls with the same texts; but the code draws
fresh `random.random()` values, so a second call (from the advanced PRNG
position) generally returns different vectors. Concretely, with the stream
`n ↦ n`, embedding `["t"]` twice gives unequal vector lists. -/
theorem embed_placeholder_not_deterministic :
    ¬ ((embedNoKey (fun n => (n : ℚ)) [['t']] 0).1 =
        (embedNoKey (fun n => (n : ℚ)) [['t']]
          ((embedNoKey (fun n => (n : ℚ)) [['t']] 0).2)).1) := by
  intro h
  have e1 : (embedNoKey (fun n => (n : ℚ)) [['t']] 0).1 =
      [placeholderVec (fun n => (n : ℚ)) 0 1536] := rfl
  have e2 : (embedNoKey (fun n => (n : ℚ)) [['t']]
      ((embedNoKey (fun n => (n : ℚ)) [['t']] 0).2)).1 =
      [placeholderVec (fun n => (n : ℚ)) 1536 1536] := rfl
  rw [e1, e2] at h
  injection h with h3 _
  have e3 : (1536 : ℕ) = 1535 + 1 := by norm_num
  rw [e3, placeholderVec_succ, placeholderVec_succ] at h3
  injection h3 with h4 _
  norm_num at h4

/-- C9 amended: the placeholder vectors depend on the PRNG stream position
(they are random, not deterministic across calls), but their shape is as
documented: one vector per input text, each with exactly 1536 components. -/
theorem embed_placeholder_shape :
    ∀ (s : ℕ → ℚ) (texts : List (List Char)) (pos : ℕ),
      ((embedNoKey s texts pos).1).length = texts.length ∧
      ∀ v ∈ (embedNoKey s texts pos).1, v.length = 1536 :=
  fun s texts pos =>
    ⟨embedNoKey_count s texts pos, fun v hv => embedNoKey_vec_length s texts pos v hv⟩

/-- Witness for C9's amended shape property at one concrete call. -/
theorem embed_placeholder_shape_witness :
    (placeholderVec (fun _ => 0) 0 1536 ∈ (embedNoKey (fun _ => 0) [[]] 0).1) ∧
    (placeholderVec (fun _ => 0) 0 1536).length = 1536 := by
  have hm : placeholderVec (fun _ => (0 : ℚ)) 0 1536 ∈ (embedNoKey (fun _ => (0 : ℚ)) [[]] 0).1 := by
    rw [show (embedNoKey (fun _ => (0 : ℚ)) [[]] 0).1 =
      [placeholderVec (fun _ => (0 : ℚ)) 0 1536] from rfl]
    exact List.mem_singleton.mpr rfl
  exact ⟨hm, (embed_placeholder_shape (fun _ => 0) [[]] 0).2 _ hm⟩

/-- C6: with an embedding provider honouring its contract (one vector per
input text), durable chunk storage is all-or-nothing for both ingestion
endpoints: every outcome either leaves the chunk table unchanged (with the
failure reported) or appends the complete chunk set of the document; for
the PDF endpoint the post-commit Meilisearch block always fails (undefined
`payload`), but the committed chunk set is still complete, never partial. -/
theorem ingest_chunk_storage_all_or_nothing
    (payload : IngestRequest) (filename : List Char) (parsed : List PdfChunk)
    (embedO : EmbedOracle) (st : DBState)
    (hO : ∀ ts vs, embedO ts = .ok vs → vs.length = ts.length) :
    (((ingest payload embedO st).1.chunks = st.chunks ∧
        ∃ e, (ingest payload embedO st).2 = Except.error e) ∨
      (∃ newRows : List ChunkRec,
        (ingest payload embedO st).1.chunks = st.chunks ++ newRows ∧
        newRows.length = (rawChunks payload.text).length ∧
        (ingest payload embedO st).2 =
          Except.ok (st.nextDocId, (rawChunks payload.text).length))) ∧
    (((ingest_pdf filename parsed embedO st).1.chunks = st.chunks ∧
        ∃ e, (ingest_pdf filename parsed embedO st).2 = Except.error e) ∨
      (∃ newRows : List ChunkRec,
        (ingest_pdf filename parsed embedO st).1.chunks = st.chunks ++ newRows ∧
        newRows.length = parsed.length ∧
        ∃ e, (ingest_pdf filename parsed embedO st).2 = Except.error e)) := by
  constructor
  · by_cases hraw : rawChunks payload.text = []
    · left
      rw [ingest]
      simp [hraw]
    · cases hemb : embedO (rawChunks payload.text) with
      | error e =>
        left
        rw [ingest]
        simp [hraw, hemb]
      | ok vectors =>
        right
        refine ⟨mkChunks st.nextDocId st.nextChunkId
          ((rawChunks payload.text).zip vectors), ?_, ?_, ?_⟩
        · rw [ingest]
          simp [hraw, hemb]
        · rw [mkChunks_length, List.length_zip, hO _ _ hemb]
          simp
        · rw [ingest]
          simp [hraw, hemb]
  · by_cases hname : isPdfName filename = true
    · by_cases hparsed : parsed = []
      · left
        rw [ingest_pdf]
        simp [hname, hparsed]
      · cases hemb : embedO (parsed.map (fun p => p.text)) with
        | error e =>
          left
          rw [ingest_pdf]
          simp [hname, hparsed, hemb]
        | ok vectors =>
          right
          refine ⟨mkPdfChunks st.nextDocId st.nextChunkId (parsed.zip vectors),
            ?_, ?_, ApiError.nameError, ?_⟩
          · rw [ingest_pdf]
            simp [hname, hparsed, hemb]
          · rw [mkPdfChunks_length, List.length_zip, hO _ _ hemb]
            simp
          · rw [ingest_pdf]
            simp [hname, hparsed, hemb]
    · left
      rw [ingest_pdf]
      simp [hname]

/-- Witness for C6 at a concrete raw-text ingest, PDF ingest and a
contract-honouring embedding oracle. -/
theorem ingest_chunk_storage_all_or_nothing_witness :
    (((ingest ⟨['T'], ['A']⟩ constEmbed st0).1.chunks = st0.chunks ∧
        ∃ e, (ingest ⟨['T'], ['A']⟩ constEmbed st0).2 = Except.error e) ∨
      (∃ newRows : List ChunkRec,
        (ingest ⟨['T'], ['A']⟩ constEmbed st0).1.chunks = st0.chunks ++ newRows ∧
        newRows.length = (rawChunks (['A'] : List Char)).length ∧
        (ingest ⟨['T'], ['A']⟩ constEmbed st0).2 =
          Except.ok (st0.nextDocId, (rawChunks (['A'] : List Char)).length))) ∧
    (((ingest_pdf ("a.pdf".toList) [⟨1, 1, 1, ['A']⟩] constEmbed st0).1.chunks = st0.chunks ∧
        ∃ e, (ingest_pdf ("a.pdf".toList) [⟨1, 1, 1, ['A']⟩] constEmbed st0).2 =
          Except.error e) ∨
      (∃ newRows : List ChunkRec,
        (ingest_pdf ("a.pdf".toList) [⟨1, 1, 1, ['A']⟩] constEmbed st0).1.chunks =
          st0.chunks ++ newRows ∧
        newRows.length = ([⟨1, 1, 1, ['A']⟩] : List PdfChunk).length ∧
        ∃ e, (ingest_pdf ("a.pdf".toList) [⟨1, 1, 1, ['A']⟩] constEmbed st0).2 =
          Except.error e)) := by
  have hO : ∀ ts vs, constEmbed ts = .ok vs → vs.length = ts.length := by
    intro ts vs h
    rw [constEmbed] at h
    injection h with h1
    rw [← h1, List.length_map]
  exact ingest_chunk_storage_all_or_nothing ⟨['T'], ['A']⟩ ("a.pdf".toList)
    [⟨1, 1, 1, ['A']⟩] constEmbed st0 hO

/-- C7: the hybrid search output is exactly the first `req.k` fused ids
that the row fetch finds, in fused order; a fused id missing from the
store is silently skipped (no error), so at most `req.k` results. -/
theorem search_hybrid_results (bm25_ids vec_ids : List ℤ) (reqK : ℕ)
    (store : ℤ → Option FetchedRow)
    (hStore : ∀ cid r, store cid = some r → r.chunk.id = cid) :
    ((search_hybrid bm25_ids vec_ids reqK store).map (fun c => c.id) =
      ((rrf bm25_ids vec_ids 60).take reqK).filter (fun cid => (store cid).isSome)) ∧
    (search_hybrid bm25_ids vec_ids reqK store).length ≤ reqK := by
  constructor
  · rw [search_hybrid]
    by_cases hf : (rrf bm25_ids vec_ids 60).take reqK = []
    · simp [hf]
    · rw [if_neg hf, filterMap_store_ids store hStore]
  · rw [search_hybrid]
    by_cases hf : (rrf bm25_ids vec_ids 60).take reqK = []
    · simp [hf]
    · rw [if_neg hf]
      exact le_trans (List.length_filterMap_le _ _) (List.length_take_le _ _)

/-- Witness for C7 at a concrete store containing only id 1, with id 2
fused but missing from the store. -/
theorem search_hybrid_results_witness :
    ((search_hybrid [1, 2] [2, 1] 2 storeW).map (fun c => c.id) =
      ((rrf [1, 2] [2, 1] 60).take 2).filter (fun cid => (storeW cid).isSome)) ∧
    (search_hybrid [1, 2] [2, 1] 2 storeW).length ≤ 2 := by
  have hStore : ∀ cid r, storeW cid = some r → r.chunk.id = cid := by
    intro cid r h
    rw [storeW] at h
    by_cases hc : cid = 1
    · rw [if_pos hc] at h
      injection h with h1
      rw [← h1, hc]
    · rw [if_neg hc] at h
      cases h
  exact search_hybrid_results [1, 2] [2, 1] 2 storeW hStore

/-- C2 (code evidence): a successful raw-text ingest of one chunk makes no
addition to the lexical index (the `/ingest` endpoint never writes to
Meilisearch), and the PDF endpoint — the only one that would — commits the
chunks, then raises `NameError` on the undefined name `payload` before
`add_documents`, so its calls fail and the lexical index again receives
nothing. -/
theorem ingest_lexical_index_never_written :
    (ingest ⟨['T'], ['A']⟩ constEmbed st0).2 = Except.ok (1, 1) ∧
    (ingest ⟨['T'], ['A']⟩ constEmbed st0).1.chunks.length = 1 ∧
    (ingest ⟨['T'], ['A']⟩ constEmbed st0).1.meili = [] ∧
    (ingest_pdf ("a.pdf".toList) [⟨1, 1, 1, ['A']⟩] constEmbed st0).2 =
      Except.error ApiError.nameError ∧
    (ingest_pdf ("a.pdf".toList) [⟨1, 1, 1, ['A']⟩] constEmbed st0).1.chunks.length = 1 ∧
    (ingest_pdf ("a.pdf".toList) [⟨1, 1, 1, ['A']⟩] constEmbed st0).1.meili = [] := by
  exact ⟨rfl, rfl, rfl, rfl, rfl, rfl⟩
